import Mathlib

/-!
# Verification of the sharded LRU/TTL order cache

A shallow embedding of `internal/cache/cache.go` (package `cache` of the
`wb_tech_l0` repository).  Go's `time.Time` values and `time.Duration`
values are embedded as `Int` (nanoseconds); `time.Now()` becomes an
explicit `now : Int` argument threaded through each operation.  The
per-shard `map[string]*orderEntry` is embedded as an association list
`List (String × EntryData)` and the `container/list` recency list as a
`List String` of keys, front first; the two refer to "the same" entries,
and the synchronisation between them is the invariant proved below.
Operations are sequential: each exported Go function runs its whole
critical section atomically, so its lock/unlock structure disappears and
the double-checked reads in `Get` become repeated lookups on the same
state.
-/

set_option maxHeartbeats 1000000

namespace CacheSpec

/-- Modelled from the spec: the payload type `orders.Order` lives in the
`models/orders` package, which is absent from the sources; the spec (§3)
treats it as an opaque business object whose intrinsic unique key is the
order UID string read by the cache as `o.OrderUid`.  The rest of the
payload is abstracted into one field. -/
structure Order where
  orderUid : String
  payload : Nat
deriving Repr, DecidableEq, Inhabited

/-- The metadata of `orderEntry` (cache.go lines 15-20): stored value and
creation timestamp.  The `key` is the association-list key; the `elem`
list handle is represented by the key's position in the shard's `lru`
list. -/
structure EntryData where
  value : Order
  createdAt : Int
deriving Repr, DecidableEq, Inhabited

/-- A shard (cache.go lines 23-27): `items` embeds the Go map
`map[string]*orderEntry`, `lru` embeds the `container/list` recency list
as the sequence of keys, front (next eviction candidate) first. -/
structure Shard where
  items : List (String × EntryData)
  lru : List String
deriving Repr, DecidableEq, Inhabited

/-- Go map read `s.items[key]`: first (unique, by the invariant) binding
of the key. -/
def lookupKey : List (String × EntryData) → String → Option EntryData
  | [], _ => none
  | p :: rest, k => if p.1 = k then some p.2 else lookupKey rest k

/-- Go map write `s.items[key] = ent` for a key already present: replace
the binding in place. -/
def updateValue (l : List (String × EntryData)) (k : String) (e : EntryData) :
    List (String × EntryData) :=
  l.map (fun p => if p.1 = k then (p.1, e) else p)

/-- Go map delete `delete(s.items, key)`: drop every binding of the key
(under the invariant there is exactly one). -/
def deleteKey : List (String × EntryData) → String → List (String × EntryData)
  | [], _ => []
  | p :: rest, k => if p.1 = k then deleteKey rest k else p :: deleteKey rest k

/-- `container/list` removal of the key's node: drops the first
occurrence (the only one, under the invariant). -/
def eraseKey : List String → String → List String
  | [], _ => []
  | x :: rest, k => if x = k then rest else x :: eraseKey rest k

/-- `s.lru.MoveToBack(ent.elem)`: a no-op when the node is no longer in
the list (Go checks `e.list == l`), otherwise unlink and push back. -/
def moveToBack (l : List String) (k : String) : List String :=
  if k ∈ l then eraseKey l k ++ [k] else l

/-- The cache (cache.go lines 30-38).  `stopCh : chan struct{}` is
embedded as the flag `stopClosed` saying whether `close(stopCh)` has
happened; `cleanupStarted : sync.Once` and the reaper goroutine carry no
further state that the claims need. -/
structure OrderCache where
  shards : List Shard
  mask : Nat
  perShardCap : Nat
  ttl : Int
  cleanupEvery : Int
  stopClosed : Bool
deriving Repr, DecidableEq, Inhabited

/-- The FNV-1a 32-bit hash of the key's UTF-8 bytes, as computed by
`fnv.New32a()` + `Write` in `shardFor` (cache.go lines 118-123). -/
def fnv32a (key : String) : Nat :=
  (String.toUTF8 key).foldl
    (fun h b => ((h ^^^ b.toNat) * 16777619) % 4294967296) 2166136261

/-- `shardFor`'s index computation `h.Sum32() & c.mask`. -/
def shardIdx (c : OrderCache) (key : String) : Nat :=
  fnv32a key &&& c.mask

/-- `removeEntryLocked` (cache.go lines 227-230): delete from the map and
unlink from the recency list. -/
def removeEntryLocked (s : Shard) (k : String) : Shard :=
  { items := deleteKey s.items k, lru := eraseKey s.lru k }

/-- `evictLRULocked` (cache.go lines 215-224): remove the `n` entries at
the recency front; stops early if the list empties. -/
def evictLRULocked (s : Shard) : Nat → Shard
  | 0 => s
  | n + 1 =>
    match s.lru.head? with
    | none => s
    | some f => evictLRULocked (removeEntryLocked s f) n

/-- The body of `Set` (cache.go lines 126-150) on the key's shard.  On an
existing key: replace the value, refresh `createdAt` only when TTL is
enabled, move the recency node to the back.  On a new key: append a fresh
entry to map and recency back, then evict one entry from the front if the
shard now exceeds its capacity. -/
def shardSet (ttl : Int) (perShardCap : Nat) (s : Shard) (o : Order)
    (now : Int) : Shard :=
  match lookupKey s.items o.orderUid with
  | some ent =>
    { items := updateValue s.items o.orderUid
        { value := o, createdAt := if 0 < ttl then now else ent.createdAt },
      lru := moveToBack s.lru o.orderUid }
  | none =>
    let s' : Shard :=
      { items := s.items ++ [(o.orderUid, { value := o, createdAt := now })],
        lru := s.lru ++ [o.orderUid] }
    if 0 < perShardCap ∧ perShardCap < s'.lru.length then
      evictLRULocked s' 1
    else s'

/-- The body of `Get` (cache.go lines 153-183) on the key's shard.  The
sequential rendering of the read-lock/write-lock two-phase pattern: the
write phase re-fetches the entry (`ent2`) from the same state.  Returns
the new shard and the `(orders.Order, bool)` pair. -/
def shardGet (ttl : Int) (s : Shard) (id : String) (now : Int) :
    Shard × Order × Bool :=
  match lookupKey s.items id with
  | none => (s, default, false)
  | some ent =>
    if 0 < ttl ∧ ttl < now - ent.createdAt then
      -- lazy-expiry path: re-check under the write lock
      match lookupKey s.items id with
      | some ent2 =>
        if ttl < now - ent2.createdAt then
          (removeEntryLocked s id, default, false)
        else
          ({ s with lru := moveToBack s.lru id }, ent.value, true)
      | none =>
        ({ s with lru := moveToBack s.lru id }, ent.value, true)
    else
      -- live path: return the value, then touch recency under the write lock
      match lookupKey s.items id with
      | some _ => ({ s with lru := moveToBack s.lru id }, ent.value, true)
      | none => (s, ent.value, true)

/-- One shard's pass of `evictExpired` (cache.go lines 200-209): walk the
recency list from the front, removing entries while they are expired,
stopping at the first entry that is not. -/
def sweepShardGo (ttl now : Int) (items : List (String × EntryData)) :
    List String → Shard
  | [] => { items := items, lru := [] }
  | k :: rest =>
    match lookupKey items k with
    | some ent =>
      if ttl < now - ent.createdAt then
        sweepShardGo ttl now (deleteKey items k) rest
      else
        { items := items, lru := k :: rest }
    | none => { items := items, lru := k :: rest }

/-- One shard's pass of `evictExpired`. -/
def sweepShard (ttl now : Int) (s : Shard) : Shard :=
  sweepShardGo ttl now s.items s.lru

/-- `Set` (cache.go lines 126-150): route by the order's UID and run the
shard body. -/
def cacheSet (c : OrderCache) (o : Order) (now : Int) : OrderCache :=
  let i := shardIdx c o.orderUid
  { c with
    shards := c.shards.set i
      (shardSet c.ttl c.perShardCap (c.shards.getD i default) o now) }

/-- `Get` (cache.go lines 153-183): route by the key, run the shard body,
return the updated cache together with the `(orders.Order, bool)` pair. -/
def cacheGet (c : OrderCache) (id : String) (now : Int) :
    OrderCache × Order × Bool :=
  let i := shardIdx c id
  let r := shardGet c.ttl (c.shards.getD i default) id now
  ({ c with shards := c.shards.set i r.1 }, r.2)

/-- `LoadFromSlice` (cache.go lines 186-190): `Set` once per value, in
input order, all within one `time.Now()` tick. -/
def LoadFromSlice (c : OrderCache) (vs : List Order) (now : Int) :
    OrderCache :=
  vs.foldl (fun c o => cacheSet c o now) c

/-- `evictExpired` (cache.go lines 193-212): a no-op when TTL is
disabled, otherwise sweep every shard. -/
def evictExpired (c : OrderCache) (now : Int) : OrderCache :=
  if c.ttl ≤ 0 then c
  else { c with shards := c.shards.map (sweepShard c.ttl now) }

/-- The `sc := 1; for sc < shardCount { sc <<= 1 }` loop of `New`
(cache.go lines 58-62). -/
def roundLoop (target : Nat) (sc : Nat) (hsc : 0 < sc) : Nat :=
  if h : sc < target then roundLoop target (sc * 2) (by omega) else sc
termination_by target - sc
decreasing_by omega

/-- Shard count rounded up to the next power of two, as in `New`. -/
def roundUpPow2 (n : Nat) : Nat := roundLoop n 1 (by omega)

/-- `time.Minute` in nanoseconds. -/
def timeMinute : Int := 60000000000

/-- `New` (cache.go lines 41-91).  Validation failures return the Go
error strings; on success the cache record is built exactly as the Go
constructor does (`startCleaner` only spawns the reaper goroutine and
changes no cache field). -/
def New (shardCount maxItems ttl cleanupInterval : Int) :
    Except String OrderCache :=
  if shardCount ≤ 0 then .error "shardCount must be > 0"
  else if maxItems < 0 then .error "maxItems must be >= 0"
  else if ttl < 0 then .error "ttl must be >= 0"
  else if cleanupInterval < 0 then .error "cleanupInterval must be >= 0"
  else if 0 < maxItems ∧ maxItems < shardCount then
    .error "maxItems must be >= shardCount (or 0 for unlimited)"
  else
    let sc := roundUpPow2 shardCount.toNat
    let base : OrderCache :=
      { shards := List.replicate sc { items := [], lru := [] },
        mask := sc - 1,
        perShardCap := 0,
        ttl := ttl,
        cleanupEvery := cleanupInterval,
        stopClosed := false }
    let withCap :=
      if 0 < maxItems then
        { base with perShardCap :=
            if maxItems.toNat / sc = 0 then 1 else maxItems.toNat / sc }
      else base
    let final :=
      if 0 < withCap.ttl ∧ withCap.cleanupEvery ≤ 0 then
        { withCap with cleanupEvery := timeMinute }
      else withCap
    .ok final

/-- Outcome of `Close`: Go's `close` on an already-closed channel panics
the process. -/
inductive CloseResult where
  | ok (c : OrderCache)
  | panic
deriving Repr, DecidableEq

/-- `Close` (cache.go line 115): `close(c.stopCh)`.  The Go runtime
panics when the channel is already closed; otherwise the closed channel
makes the reaper's `case <-c.stopCh` fire, stopping it. -/
def Close (c : OrderCache) : CloseResult :=
  if c.stopClosed then .panic else .ok { c with stopClosed := true }

/-- A client-visible cache operation, with the `time.Now()` value the Go
runtime would supply. -/
inductive Op where
  | set (o : Order) (now : Int)
  | get (id : String) (now : Int)
  | sweep (now : Int)
deriving Repr, DecidableEq

/-- Run one operation. -/
def applyOp (c : OrderCache) : Op → OrderCache
  | .set o now => cacheSet c o now
  | .get id now => (cacheGet c id now).1
  | .sweep now => evictExpired c now

/-- Run a finite sequence of operations, in order. -/
def applyOps (c : OrderCache) (ops : List Op) : OrderCache :=
  ops.foldl applyOp c

/-- The map/recency synchronisation invariant of one shard (spec §3):
the recency list holds no duplicates and is a permutation of the map's
key set, so every key in the map has exactly one recency node and vice
versa. -/
def ShardWF (s : Shard) : Prop :=
  s.lru.Nodup ∧ (s.items.map Prod.fst).Perm s.lru

instance (s : Shard) : Decidable (ShardWF s) := by
  unfold ShardWF; infer_instance

/-- Cache well-formedness: the mask matches the shard array (as `New`
arranges, with a power-of-two length) and every shard satisfies the
synchronisation invariant. -/
def CacheWF (c : OrderCache) : Prop :=
  c.mask + 1 = c.shards.length ∧ ∀ s ∈ c.shards, ShardWF s

instance (c : OrderCache) : Decidable (CacheWF c) := by
  unfold CacheWF; infer_instance

/-- The shard a key routes to (the dereference `c.shards[idx]`). -/
def getShard (c : OrderCache) (k : String) : Shard :=
  c.shards.getD (shardIdx c k) default

/-- Whether the cache currently stores the key (a specification-side
observer, not a Go function). -/
def cacheHasKey (c : OrderCache) (k : String) : Bool :=
  (lookupKey (getShard c k).items k).isSome

/-- Whether the entry stored under `k` is expired at `now` (the test
`now.Sub(ent.createdAt) > c.ttl` of `evictExpired`); `false` when the key
is absent. -/
def isExpiredIn (ttl now : Int) (items : List (String × EntryData))
    (k : String) : Bool :=
  match lookupKey items k with
  | some e => decide (ttl < now - e.createdAt)
  | none => false

/-- An empty shard, as `New` builds them. -/
def emptyShard : Shard := { items := [], lru := [] }

/-- A concrete single-shard cache used to instantiate theorems. -/
def oneShardCache (ttl : Int) (cap : Nat) : OrderCache :=
  { shards := [emptyShard], mask := 0, perShardCap := cap,
    ttl := ttl, cleanupEvery := 0, stopClosed := false }

/-- A concrete shard already filled to capacity 2, for instantiating the
eviction theorems. -/
def fullShard : Shard :=
  { items := [("a", { value := { orderUid := "a", payload := 1 },
                      createdAt := 0 }),
              ("b", { value := { orderUid := "b", payload := 2 },
                      createdAt := 0 })],
    lru := ["a", "b"] }

/-- A concrete shard whose front entry is expired at `now = 5` with
`ttl = 3` while the back entry is still live. -/
def mixedShard : Shard :=
  { items := [("a", { value := { orderUid := "a", payload := 1 },
                      createdAt := 0 }),
              ("b", { value := { orderUid := "b", payload := 2 },
                      createdAt := 4 })],
    lru := ["a", "b"] }

/-- The cache record `New 3 10 0 0` builds (four shards after rounding,
per-shard capacity `10 / 4 = 2`). -/
def cacheNew310 : OrderCache :=
  { shards := List.replicate 4 emptyShard, mask := 3, perShardCap := 2,
    ttl := 0, cleanupEvery := 0, stopClosed := false }

/-! ### Association-list and recency-list lemmas -/

theorem lookupKey_eq_none_iff {l : List (String × EntryData)} {k : String} :
    lookupKey l k = none ↔ k ∉ l.map Prod.fst := by
  induction l with
  | nil => simp [lookupKey]
  | cons p rest ih =>
    by_cases h : p.1 = k
    · simp [lookupKey, h]
    · simp only [lookupKey, h, if_false, List.map_cons, List.mem_cons, ih]
      constructor
      · intro hk hc
        rcases hc with hc | hc
        · exact h hc.symm
        · exact hk hc
      · intro hk
        exact fun hc => hk (Or.inr hc)

theorem mem_keys_of_lookupKey {l : List (String × EntryData)} {k : String}
    {e : EntryData} (h : lookupKey l k = some e) : k ∈ l.map Prod.fst := by
  by_contra hk
  rw [← lookupKey_eq_none_iff] at hk
  simp [hk] at h

theorem lookupKey_append {l l' : List (String × EntryData)} {k : String} :
    lookupKey (l ++ l') k = (lookupKey l k).or (lookupKey l' k) := by
  induction l with
  | nil => simp [lookupKey]
  | cons p rest ih =>
    by_cases h : p.1 = k <;> simp [lookupKey, h, ih]

theorem map_fst_updateValue {l : List (String × EntryData)} {k : String}
    {e : EntryData} : (updateValue l k e).map Prod.fst = l.map Prod.fst := by
  induction l with
  | nil => simp [updateValue]
  | cons p rest ih =>
    by_cases h : p.1 = k <;> simp [updateValue, h] <;>
      simpa [updateValue] using ih

theorem lookupKey_updateValue_self {l : List (String × EntryData)}
    {k : String} {e : EntryData} :
    lookupKey (updateValue l k e) k = (lookupKey l k).map (fun _ => e) := by
  induction l with
  | nil => simp [lookupKey, updateValue]
  | cons p rest ih =>
    by_cases h : p.1 = k
    · simp [lookupKey, updateValue, h]
    · simp only [updateValue, List.map_cons, if_neg h, lookupKey, h, if_false]
      simpa [updateValue] using ih

theorem lookupKey_updateValue_ne {l : List (String × EntryData)}
    {k k' : String} {e : EntryData} (hne : k' ≠ k) :
    lookupKey (updateValue l k e) k' = lookupKey l k' := by
  induction l with
  | nil => simp [lookupKey, updateValue]
  | cons p rest ih =>
    by_cases h : p.1 = k
    · have hpk : ¬ p.1 = k' := fun hc => hne (hc.symm.trans h)
      simp only [updateValue, List.map_cons, if_pos h]
      rw [lookupKey, lookupKey]
      simp only [if_neg hpk]
      exact ih
    · simp only [updateValue, List.map_cons, if_neg h]
      rw [lookupKey, lookupKey]
      by_cases h2 : p.1 = k'
      · simp only [if_pos h2]
      · simp only [if_neg h2]
        exact ih

theorem map_fst_deleteKey {l : List (String × EntryData)} {k : String} :
    (deleteKey l k).map Prod.fst =
      (l.map Prod.fst).filter (fun x => decide (x ≠ k)) := by
  induction l with
  | nil => rfl
  | cons p rest ih =>
    by_cases h : p.1 = k
    · simp [deleteKey, h, ih]
    · simp [deleteKey, h, ih]

theorem lookupKey_deleteKey_self {l : List (String × EntryData)}
    {k : String} : lookupKey (deleteKey l k) k = none := by
  rw [lookupKey_eq_none_iff, map_fst_deleteKey]
  simp

theorem lookupKey_deleteKey_ne {l : List (String × EntryData)}
    {k k' : String} (hne : k' ≠ k) :
    lookupKey (deleteKey l k) k' = lookupKey l k' := by
  induction l with
  | nil => simp [lookupKey, deleteKey]
  | cons p rest ih =>
    by_cases h : p.1 = k
    · have hkk : ¬ (k = k') := fun hc => hne hc.symm
      simp [deleteKey, h, lookupKey, hkk, ih]
    · by_cases h2 : p.1 = k'
      · simp [deleteKey, h, lookupKey, h2, hne]
      · simp [deleteKey, h, lookupKey, h2, ih]

theorem length_deleteKey_le {l : List (String × EntryData)} {k : String} :
    (deleteKey l k).length ≤ l.length := by
  induction l with
  | nil => simp [deleteKey]
  | cons p rest ih =>
    by_cases h : p.1 = k
    · simp only [deleteKey, if_pos h, List.length_cons]
      omega
    · simp only [deleteKey, if_neg h, List.length_cons]
      omega

theorem length_deleteKey_lt {l : List (String × EntryData)} {k : String}
    (h : k ∈ l.map Prod.fst) : (deleteKey l k).length < l.length := by
  induction l with
  | nil => simp at h
  | cons p rest ih =>
    by_cases hp : p.1 = k
    · simp only [deleteKey, if_pos hp, List.length_cons]
      exact Nat.lt_succ_of_le length_deleteKey_le
    · simp only [List.map_cons, List.mem_cons] at h
      rcases h with h | h
      · exact absurd h.symm hp
      · simp only [deleteKey, if_neg hp, List.length_cons]
        exact Nat.succ_lt_succ (ih h)

theorem eraseKey_of_not_mem {l : List String} {k : String} (h : k ∉ l) :
    eraseKey l k = l := by
  induction l with
  | nil => rfl
  | cons x rest ih =>
    simp only [List.mem_cons, not_or] at h
    simp [eraseKey, Ne.symm h.1, ih h.2]

theorem eraseKey_eq_filter {l : List String} {k : String} (h : l.Nodup) :
    eraseKey l k = l.filter (fun x => decide (x ≠ k)) := by
  induction l with
  | nil => rfl
  | cons x rest ih =>
    rcases List.nodup_cons.mp h with ⟨hx, hrest⟩
    by_cases hxk : x = k
    · subst hxk
      have hself : List.filter (fun y => !decide (y = x)) rest = rest :=
        List.filter_eq_self.mpr (fun y hy => by
          have hyx : y ≠ x := fun hc => hx (hc ▸ hy)
          simpa using hyx)
      simp [eraseKey, List.filter_cons, hself]
    · simp [eraseKey, List.filter_cons, hxk, ih hrest]

theorem perm_cons_eraseKey {l : List String} {k : String} (h : k ∈ l) :
    l.Perm (k :: eraseKey l k) := by
  induction l with
  | nil => simp at h
  | cons x rest ih =>
    by_cases hxk : x = k
    · subst hxk
      simp [eraseKey]
    · rcases List.mem_cons.mp h with h1 | h2
      · exact absurd h1.symm hxk
      · have step1 : (x :: rest).Perm (x :: (k :: eraseKey rest k)) :=
          (ih h2).cons x
        have step2 : (x :: (k :: eraseKey rest k)).Perm
            (k :: (x :: eraseKey rest k)) := List.Perm.swap k x _
        have step3 : k :: (x :: eraseKey rest k) =
            k :: eraseKey (x :: rest) k := by simp [eraseKey, hxk]
        exact (step1.trans step2).trans (step3 ▸ List.Perm.refl _)

theorem nodup_eraseKey {l : List String} {k : String} (h : l.Nodup) :
    (eraseKey l k).Nodup := by
  rw [eraseKey_eq_filter h]
  exact h.filter _

theorem not_mem_eraseKey {l : List String} {k : String} (h : l.Nodup) :
    k ∉ eraseKey l k := by
  rw [eraseKey_eq_filter h]
  intro hc
  simpa using (List.of_mem_filter hc)

theorem moveToBack_perm {l : List String} {k : String} :
    (moveToBack l k).Perm l := by
  unfold moveToBack
  split
  · rename_i h
    have step1 : (eraseKey l k ++ [k]).Perm (k :: eraseKey l k) := by
      simpa using (@List.perm_append_comm _ (eraseKey l k) [k])
    exact step1.trans (perm_cons_eraseKey h).symm
  · exact List.Perm.refl l

theorem moveToBack_nodup {l : List String} {k : String} (h : l.Nodup) :
    (moveToBack l k).Nodup :=
  (moveToBack_perm).nodup_iff.mpr h

/-! ### Branch equations for the shard operations -/

theorem evictLRULocked_zero {s : Shard} : evictLRULocked s 0 = s := rfl

theorem evictLRULocked_succ_none {s : Shard} {n : Nat}
    (hh : s.lru.head? = none) : evictLRULocked s (n + 1) = s := by
  rw [evictLRULocked, hh]

theorem evictLRULocked_succ {s : Shard} {n : Nat} {f : String}
    (hh : s.lru.head? = some f) :
    evictLRULocked s (n + 1) = evictLRULocked (removeEntryLocked s f) n := by
  rw [evictLRULocked, hh]

theorem shardSet_update {ttl : Int} {cap : Nat} {s : Shard} {o : Order}
    {now : Int} {ent : EntryData}
    (hl : lookupKey s.items o.orderUid = some ent) :
    shardSet ttl cap s o now =
      { items := updateValue s.items o.orderUid
          { value := o, createdAt := if 0 < ttl then now else ent.createdAt },
        lru := moveToBack s.lru o.orderUid } := by
  rw [shardSet, hl]

theorem shardSet_insert_fit {ttl : Int} {cap : Nat} {s : Shard} {o : Order}
    {now : Int} (hl : lookupKey s.items o.orderUid = none)
    (hc : ¬ (0 < cap ∧ cap < s.lru.length + 1)) :
    shardSet ttl cap s o now =
      { items := s.items ++ [(o.orderUid, { value := o, createdAt := now })],
        lru := s.lru ++ [o.orderUid] } := by
  rw [shardSet, hl]
  dsimp only
  rw [if_neg (by simpa using hc)]

theorem shardSet_insert_evict {ttl : Int} {cap : Nat} {s : Shard} {o : Order}
    {now : Int} (hl : lookupKey s.items o.orderUid = none)
    (hc : 0 < cap ∧ cap < s.lru.length + 1) :
    shardSet ttl cap s o now =
      evictLRULocked
        { items := s.items ++ [(o.orderUid, { value := o, createdAt := now })],
          lru := s.lru ++ [o.orderUid] } 1 := by
  rw [shardSet, hl]
  dsimp only
  rw [if_pos (by simpa using hc)]

theorem shardGet_none {ttl : Int} {s : Shard} {id : String} {now : Int}
    (hl : lookupKey s.items id = none) :
    shardGet ttl s id now = (s, default, false) := by
  rw [shardGet, hl]

theorem shardGet_expired {ttl : Int} {s : Shard} {id : String} {now : Int}
    {ent : EntryData} (hl : lookupKey s.items id = some ent)
    (h1 : 0 < ttl) (h2 : ttl < now - ent.createdAt) :
    shardGet ttl s id now = (removeEntryLocked s id, default, false) := by
  rw [shardGet, hl]
  dsimp only
  rw [if_pos ⟨h1, h2⟩, if_pos h2]

theorem shardGet_live {ttl : Int} {s : Shard} {id : String} {now : Int}
    {ent : EntryData} (hl : lookupKey s.items id = some ent)
    (hcond : ¬ (0 < ttl ∧ ttl < now - ent.createdAt)) :
    shardGet ttl s id now =
      ({ s with lru := moveToBack s.lru id }, ent.value, true) := by
  rw [shardGet, hl]
  dsimp only
  rw [if_neg hcond]

theorem sweepShardGo_nil {ttl now : Int} {items : List (String × EntryData)} :
    sweepShardGo ttl now items [] = { items := items, lru := [] } := rfl

theorem sweepShardGo_cons_expired {ttl now : Int}
    {items : List (String × EntryData)} {k : String} {rest : List String}
    {ent : EntryData} (hl : lookupKey items k = some ent)
    (he : ttl < now - ent.createdAt) :
    sweepShardGo ttl now items (k :: rest) =
      sweepShardGo ttl now (deleteKey items k) rest := by
  rw [sweepShardGo, hl]
  dsimp only
  rw [if_pos he]

theorem sweepShardGo_cons_live {ttl now : Int}
    {items : List (String × EntryData)} {k : String} {rest : List String}
    {ent : EntryData} (hl : lookupKey items k = some ent)
    (he : ¬ ttl < now - ent.createdAt) :
    sweepShardGo ttl now items (k :: rest) =
      { items := items, lru := k :: rest } := by
  rw [sweepShardGo, hl]
  dsimp only
  rw [if_neg he]

theorem sweepShardGo_cons_none {ttl now : Int}
    {items : List (String × EntryData)} {k : String} {rest : List String}
    (hl : lookupKey items k = none) :
    sweepShardGo ttl now items (k :: rest) =
      { items := items, lru := k :: rest } := by
  rw [sweepShardGo, hl]

/-! ### Shard-level invariant preservation -/

theorem shardWF_removeEntryLocked {s : Shard} {k : String} (h : ShardWF s) :
    ShardWF (removeEntryLocked s k) := by
  rcases h with ⟨hnd, hperm⟩
  refine ⟨nodup_eraseKey hnd, ?_⟩
  show ((deleteKey s.items k).map Prod.fst).Perm (eraseKey s.lru k)
  rw [map_fst_deleteKey, eraseKey_eq_filter hnd]
  exact hperm.filter _

theorem shardWF_evictLRULocked {s : Shard} (h : ShardWF s) (n : Nat) :
    ShardWF (evictLRULocked s n) := by
  induction n generalizing s with
  | zero => exact h
  | succ m ih =>
    rw [evictLRULocked]
    cases hh : s.lru.head? with
    | none => exact h
    | some f => exact ih (shardWF_removeEntryLocked h)

theorem shardWF_insertBack {s : Shard} {o : Order} (now : Int)
    (hnd : s.lru.Nodup) (hperm : (s.items.map Prod.fst).Perm s.lru)
    (hl : lookupKey s.items o.orderUid = none) :
    ShardWF { items := s.items ++ [(o.orderUid, { value := o, createdAt := now })],
              lru := s.lru ++ [o.orderUid] } := by
  have hnotmem : o.orderUid ∉ s.items.map Prod.fst := lookupKey_eq_none_iff.mp hl
  have hnotlru : o.orderUid ∉ s.lru := fun hc => hnotmem (hperm.mem_iff.mpr hc)
  constructor
  · exact (List.perm_append_singleton _ _).nodup_iff.mpr
      (List.nodup_cons.mpr ⟨hnotlru, hnd⟩)
  · show ((s.items ++ [(o.orderUid, _)]).map Prod.fst).Perm _
    rw [List.map_append]
    exact hperm.append_right _

theorem shardWF_shardSet {ttl : Int} {cap : Nat} {s : Shard} {o : Order}
    {now : Int} (h : ShardWF s) : ShardWF (shardSet ttl cap s o now) := by
  rcases h with ⟨hnd, hperm⟩
  cases hl : lookupKey s.items o.orderUid with
  | some ent =>
    rw [shardSet_update hl]
    refine ⟨moveToBack_nodup hnd, ?_⟩
    show ((updateValue s.items o.orderUid _).map Prod.fst).Perm _
    rw [map_fst_updateValue]
    exact hperm.trans moveToBack_perm.symm
  | none =>
    have hwf2 := shardWF_insertBack now hnd hperm hl
    by_cases hc : 0 < cap ∧ cap < s.lru.length + 1
    · rw [shardSet_insert_evict hl hc]
      exact shardWF_evictLRULocked hwf2 1
    · rw [shardSet_insert_fit hl hc]
      exact hwf2

theorem shardWF_shardGet {ttl : Int} {s : Shard} {id : String} {now : Int}
    (h : ShardWF s) : ShardWF (shardGet ttl s id now).1 := by
  have hmv : ShardWF { s with lru := moveToBack s.lru id } :=
    ⟨moveToBack_nodup h.1, h.2.trans moveToBack_perm.symm⟩
  cases hl : lookupKey s.items id with
  | none => rw [shardGet_none hl]; exact h
  | some ent =>
    by_cases hcond : 0 < ttl ∧ ttl < now - ent.createdAt
    · rw [shardGet_expired hl hcond.1 hcond.2]
      exact shardWF_removeEntryLocked h
    · rw [shardGet_live hl hcond]
      exact hmv

theorem shardWF_sweepShardGo {ttl now : Int} :
    ∀ (lru : List String) (items : List (String × EntryData)),
      lru.Nodup → (items.map Prod.fst).Perm lru →
      ShardWF (sweepShardGo ttl now items lru) := by
  intro lru
  induction lru with
  | nil =>
    intro items hnd hperm
    exact ⟨List.nodup_nil, hperm⟩
  | cons k rest ih =>
    intro items hnd hperm
    cases hl : lookupKey items k with
    | some ent =>
      by_cases he : ttl < now - ent.createdAt
      · rw [sweepShardGo_cons_expired hl he]
        apply ih
        · exact (List.nodup_cons.mp hnd).2
        · have h2 := hperm.filter (fun x => decide (x ≠ k))
          rw [← eraseKey_eq_filter hnd] at h2
          simp only [eraseKey, if_pos rfl] at h2
          rw [map_fst_deleteKey]
          exact h2
      · rw [sweepShardGo_cons_live hl he]
        exact ⟨hnd, hperm⟩
    | none =>
      rw [sweepShardGo_cons_none hl]
      exact ⟨hnd, hperm⟩

theorem shardWF_sweepShard {ttl now : Int} {s : Shard} (h : ShardWF s) :
    ShardWF (sweepShard ttl now s) :=
  shardWF_sweepShardGo s.lru s.items h.1 h.2

theorem shardWF_length {s : Shard} (h : ShardWF s) :
    s.items.length = s.lru.length := by
  have := h.2.length_eq
  simpa using this

/-! ### Size bounds -/

theorem length_sweepShardGo_le {ttl now : Int} :
    ∀ (lru : List String) (items : List (String × EntryData)),
      (sweepShardGo ttl now items lru).items.length ≤ items.length := by
  intro lru
  induction lru with
  | nil => intro items; simp [sweepShardGo_nil]
  | cons k rest ih =>
    intro items
    cases hl : lookupKey items k with
    | some ent =>
      by_cases he : ttl < now - ent.createdAt
      · rw [sweepShardGo_cons_expired hl he]
        exact le_trans (ih (deleteKey items k)) length_deleteKey_le
      · rw [sweepShardGo_cons_live hl he]
    | none => rw [sweepShardGo_cons_none hl]

theorem length_shardGet_le {ttl : Int} {s : Shard} {id : String} {now : Int} :
    (shardGet ttl s id now).1.items.length ≤ s.items.length := by
  cases hl : lookupKey s.items id with
  | none => rw [shardGet_none hl]
  | some ent =>
    by_cases hcond : 0 < ttl ∧ ttl < now - ent.createdAt
    · rw [shardGet_expired hl hcond.1 hcond.2]
      exact length_deleteKey_le
    · rw [shardGet_live hl hcond]

theorem length_shardSet_le {ttl : Int} {cap : Nat} {s : Shard} {o : Order}
    {now : Int} (h : ShardWF s) (hcap : 0 < cap)
    (hle : s.items.length ≤ cap) :
    (shardSet ttl cap s o now).items.length ≤ cap := by
  cases hl : lookupKey s.items o.orderUid with
  | some ent =>
    rw [shardSet_update hl]
    simpa [updateValue] using hle
  | none =>
    by_cases hc : 0 < cap ∧ cap < s.lru.length + 1
    · rw [shardSet_insert_evict hl hc]
      have hlen : s.items.length = s.lru.length := shardWF_length h
      have hlru : s.lru.length = cap := by omega
      have hpos : 0 < s.lru.length := by omega
      obtain ⟨f, rest, hfr⟩ := List.exists_cons_of_ne_nil
        (List.ne_nil_of_length_pos hpos)
      have hhead : (s.lru ++ [o.orderUid]).head? = some f := by
        rw [hfr]; rfl
      rw [evictLRULocked_succ hhead, evictLRULocked_zero]
      have hfmem : f ∈ s.items.map Prod.fst := by
        have : f ∈ s.lru := by rw [hfr]; exact List.mem_cons_self f rest
        exact h.2.mem_iff.mpr this
      have hfmem2 : f ∈ (s.items ++
          [(o.orderUid, ({ value := o, createdAt := now } : EntryData))]).map
            Prod.fst := by
        rw [List.map_append]
        exact List.mem_append_left _ hfmem
      have hdel := length_deleteKey_lt hfmem2
      rw [removeEntryLocked]
      dsimp only
      simp only [List.length_append, List.length_singleton] at hdel
      omega
    · rw [shardSet_insert_fit hl hc]
      have hlen : s.items.length = s.lru.length := shardWF_length h
      simp only [List.length_append, List.length_singleton]
      omega

/-! ### Cache-level lemmas -/

theorem le_roundLoop (t sc : Nat) (h : 0 < sc) : sc ≤ roundLoop t sc h := by
  rw [roundLoop]
  split
  · exact le_trans (by omega) (le_roundLoop t (sc * 2) (by omega))
  · exact le_refl sc
termination_by t - sc
decreasing_by omega

theorem one_le_roundUpPow2 (n : Nat) : 1 ≤ roundUpPow2 n :=
  le_roundLoop n 1 (by omega)

theorem shardIdx_le_mask {c : OrderCache} {k : String} :
    shardIdx c k ≤ c.mask :=
  Nat.and_le_right

theorem shardIdx_lt {c : OrderCache} {k : String}
    (h : c.mask + 1 = c.shards.length) :
    shardIdx c k < c.shards.length := by
  have h1 : shardIdx c k ≤ c.mask := shardIdx_le_mask
  omega

theorem getD_set_self {α : Type} [Inhabited α] {l : List α} {i : Nat}
    {a d : α} (h : i < l.length) : (l.set i a).getD i d = a := by
  simp [List.getD_eq_getElem?_getD, List.getElem?_set_self, h]

theorem getD_mem {α : Type} [Inhabited α] {l : List α} {i : Nat} {d : α}
    (h : i < l.length) : l.getD i d ∈ l := by
  rw [List.getD_eq_getElem?_getD, List.getElem?_eq_getElem h]
  exact List.getElem_mem h

theorem cacheSet_mask {c : OrderCache} {o : Order} {t : Int} :
    (cacheSet c o t).mask = c.mask := rfl

theorem cacheGet_mask {c : OrderCache} {id : String} {t : Int} :
    (cacheGet c id t).1.mask = c.mask := rfl

theorem evictExpired_mask {c : OrderCache} {t : Int} :
    (evictExpired c t).mask = c.mask := by
  rw [evictExpired]; split <;> rfl

theorem cacheSet_length {c : OrderCache} {o : Order} {t : Int} :
    (cacheSet c o t).shards.length = c.shards.length := by
  simp [cacheSet]

theorem cacheGet_length {c : OrderCache} {id : String} {t : Int} :
    (cacheGet c id t).1.shards.length = c.shards.length := by
  simp [cacheGet]

theorem evictExpired_length {c : OrderCache} {t : Int} :
    (evictExpired c t).shards.length = c.shards.length := by
  rw [evictExpired]; split <;> simp

theorem cacheWF_cacheSet {c : OrderCache} {o : Order} {t : Int}
    (h : CacheWF c) : CacheWF (cacheSet c o t) := by
  obtain ⟨hm, hs⟩ := h
  constructor
  · rw [cacheSet_mask, cacheSet_length]; exact hm
  · intro s hsmem
    simp only [cacheSet] at hsmem
    rcases List.mem_or_eq_of_mem_set hsmem with hold | hnew
    · exact hs s hold
    · subst hnew
      exact shardWF_shardSet (hs _ (getD_mem (shardIdx_lt hm)))

theorem cacheWF_cacheGet {c : OrderCache} {id : String} {t : Int}
    (h : CacheWF c) : CacheWF (cacheGet c id t).1 := by
  obtain ⟨hm, hs⟩ := h
  constructor
  · rw [cacheGet_mask, cacheGet_length]; exact hm
  · intro s hsmem
    simp only [cacheGet] at hsmem
    rcases List.mem_or_eq_of_mem_set hsmem with hold | hnew
    · exact hs s hold
    · subst hnew
      exact shardWF_shardGet (hs _ (getD_mem (shardIdx_lt hm)))

theorem cacheWF_evictExpired {c : OrderCache} {t : Int}
    (h : CacheWF c) : CacheWF (evictExpired c t) := by
  obtain ⟨hm, hs⟩ := h
  rw [evictExpired]
  split
  · exact ⟨hm, hs⟩
  · constructor
    · simpa using hm
    · intro s hsmem
      simp only [List.mem_map] at hsmem
      obtain ⟨x, hx, hxs⟩ := hsmem
      subst hxs
      exact shardWF_sweepShard (hs x hx)

theorem cacheWF_applyOp {c : OrderCache} {op : Op} (h : CacheWF c) :
    CacheWF (applyOp c op) := by
  cases op with
  | set o now => exact cacheWF_cacheSet h
  | get id now => exact cacheWF_cacheGet h
  | sweep now => exact cacheWF_evictExpired h

theorem cacheWF_applyOps {c : OrderCache} {ops : List Op} (h : CacheWF c) :
    CacheWF (applyOps c ops) := by
  induction ops generalizing c with
  | nil => exact h
  | cons op rest ih => exact ih (cacheWF_applyOp h)

theorem applyOp_perShardCap {c : OrderCache} {op : Op} :
    (applyOp c op).perShardCap = c.perShardCap := by
  cases op with
  | set o now => rfl
  | get id now => rfl
  | sweep now => rw [applyOp, evictExpired]; split <;> rfl

theorem applyOps_perShardCap {c : OrderCache} {ops : List Op} :
    (applyOps c ops).perShardCap = c.perShardCap := by
  induction ops generalizing c with
  | nil => rfl
  | cons op rest ih =>
    show (applyOps (applyOp c op) rest).perShardCap = _
    rw [ih, applyOp_perShardCap]

theorem cacheSet_ttl {c : OrderCache} {o : Order} {t : Int} :
    (cacheSet c o t).ttl = c.ttl := rfl

theorem cacheGet_ttl {c : OrderCache} {id : String} {t : Int} :
    (cacheGet c id t).1.ttl = c.ttl := rfl

theorem cacheGet_snd {c : OrderCache} {id : String} {t : Int} :
    (cacheGet c id t).2 = (shardGet c.ttl (getShard c id) id t).2 := rfl

theorem getShard_cacheSet {c : OrderCache} {o : Order} {t : Int}
    (h : c.mask + 1 = c.shards.length) :
    getShard (cacheSet c o t) o.orderUid =
      shardSet c.ttl c.perShardCap (getShard c o.orderUid) o t := by
  show ((cacheSet c o t).shards).getD (shardIdx (cacheSet c o t) o.orderUid)
      default = _
  have hidx : shardIdx (cacheSet c o t) o.orderUid = shardIdx c o.orderUid :=
    rfl
  rw [hidx]
  exact getD_set_self (shardIdx_lt h)

theorem getShard_cacheGet {c : OrderCache} {id : String} {t : Int}
    (h : c.mask + 1 = c.shards.length) :
    getShard (cacheGet c id t).1 id =
      (shardGet c.ttl (getShard c id) id t).1 := by
  show (((cacheGet c id t).1).shards).getD
      (shardIdx (cacheGet c id t).1 id) default = _
  have hidx : shardIdx (cacheGet c id t).1 id = shardIdx c id := rfl
  rw [hidx]
  exact getD_set_self (shardIdx_lt h)

/-! ### Round-trip lemmas -/

theorem lookupKey_shardSet {ttl : Int} {cap : Nat} {s : Shard} {o : Order}
    {now : Int} (hwf : ShardWF s) :
    ∃ t', lookupKey (shardSet ttl cap s o now).items o.orderUid =
        some { value := o, createdAt := t' } ∧ (0 < ttl → t' = now) := by
  cases hl : lookupKey s.items o.orderUid with
  | some ent =>
    refine ⟨if 0 < ttl then now else ent.createdAt, ?_, ?_⟩
    · rw [shardSet_update hl]
      show lookupKey (updateValue s.items o.orderUid _) o.orderUid = _
      rw [lookupKey_updateValue_self, hl]
      rfl
    · intro h0; rw [if_pos h0]
  | none =>
    have hkey : lookupKey (s.items ++
        [(o.orderUid, ({ value := o, createdAt := now } : EntryData))])
        o.orderUid = some { value := o, createdAt := now } := by
      rw [lookupKey_append, hl]
      simp [lookupKey]
    by_cases hc : 0 < cap ∧ cap < s.lru.length + 1
    · rw [shardSet_insert_evict hl hc]
      have hlenpos : 0 < s.lru.length := by omega
      obtain ⟨f, rest, hfr⟩ := List.exists_cons_of_ne_nil
        (List.ne_nil_of_length_pos hlenpos)
      have hhead : (s.lru ++ [o.orderUid]).head? = some f := by
        rw [hfr]; rfl
      rw [evictLRULocked_succ hhead, evictLRULocked_zero, removeEntryLocked]
      dsimp only
      have hfne : o.orderUid ≠ f := by
        intro hc2
        have hfl : f ∈ s.lru := by rw [hfr]; exact List.mem_cons_self f rest
        have : o.orderUid ∈ s.items.map Prod.fst :=
          hwf.2.mem_iff.mpr (hc2 ▸ hfl)
        exact (lookupKey_eq_none_iff.mp hl) this
      rw [lookupKey_deleteKey_ne hfne]
      exact ⟨now, hkey, fun _ => rfl⟩
    · rw [shardSet_insert_fit hl hc]
      exact ⟨now, hkey, fun _ => rfl⟩

theorem cacheSet_lookup {c : OrderCache} {o : Order} {t : Int}
    (hwf : CacheWF c) :
    ∃ t', lookupKey (getShard (cacheSet c o t) o.orderUid).items o.orderUid =
        some { value := o, createdAt := t' } ∧ (0 < c.ttl → t' = t) := by
  rw [getShard_cacheSet hwf.1]
  exact lookupKey_shardSet (hwf.2 _ (getD_mem (shardIdx_lt hwf.1)))

theorem cacheSet_then_get {c : OrderCache} {o : Order} {t1 t2 : Int}
    (hwf : CacheWF c) (httl : 0 < c.ttl → t2 - t1 ≤ c.ttl) :
    (cacheGet (cacheSet c o t1) o.orderUid t2).2 = (o, true) := by
  obtain ⟨t', hlook, ht'⟩ := cacheSet_lookup (o := o) (t := t1) hwf
  rw [cacheGet_snd]
  have hcond : ¬ (0 < (cacheSet c o t1).ttl ∧ (cacheSet c o t1).ttl <
      t2 - (({ value := o, createdAt := t' } : EntryData)).createdAt) := by
    rintro ⟨hp, hgt⟩
    rw [cacheSet_ttl] at hp hgt
    have h1 := httl hp
    have h2 := ht' hp
    simp only at hgt
    omega
  rw [shardGet_live hlook hcond]

/-! ### Cache-level size bound -/

theorem sizeBound_applyOp {c : OrderCache} {op : Op} {cap : Nat}
    (hwf : CacheWF c) (hcap : c.perShardCap = cap) (h0 : 0 < cap)
    (hb : ∀ s ∈ c.shards, s.items.length ≤ cap) :
    ∀ s ∈ (applyOp c op).shards, s.items.length ≤ cap := by
  cases op with
  | set o now =>
    intro s hsmem
    simp only [applyOp, cacheSet] at hsmem
    rcases List.mem_or_eq_of_mem_set hsmem with hold | hnew
    · exact hb s hold
    · subst hnew
      have hmem : c.shards.getD (shardIdx c o.orderUid) default ∈ c.shards :=
        getD_mem (shardIdx_lt hwf.1)
      rw [hcap]
      exact length_shardSet_le (hwf.2 _ hmem) h0 (hb _ hmem)
  | get id now =>
    intro s hsmem
    simp only [applyOp, cacheGet] at hsmem
    rcases List.mem_or_eq_of_mem_set hsmem with hold | hnew
    · exact hb s hold
    · subst hnew
      have hmem : c.shards.getD (shardIdx c id) default ∈ c.shards :=
        getD_mem (shardIdx_lt hwf.1)
      exact le_trans length_shardGet_le (hb _ hmem)
  | sweep now =>
    intro s hsmem
    simp only [applyOp] at hsmem
    rw [evictExpired] at hsmem
    split at hsmem
    · exact hb s hsmem
    · simp only [List.mem_map] at hsmem
      obtain ⟨x, hx, hxs⟩ := hsmem
      subst hxs
      exact le_trans (length_sweepShardGo_le x.lru x.items) (hb x hx)

theorem sizeBound_applyOps {c : OrderCache} {ops : List Op} {cap : Nat}
    (hwf : CacheWF c) (hcap : c.perShardCap = cap) (h0 : 0 < cap)
    (hb : ∀ s ∈ c.shards, s.items.length ≤ cap) :
    ∀ s ∈ (applyOps c ops).shards, s.items.length ≤ cap := by
  induction ops generalizing c with
  | nil => exact hb
  | cons op rest ih =>
    exact ih (cacheWF_applyOp hwf)
      (applyOp_perShardCap.trans hcap)
      (sizeBound_applyOp hwf hcap h0 hb)

/-! ### Sweep characterisation -/

theorem takeWhile_dropWhile_congr {p q : String → Bool} :
    ∀ {l : List String}, (∀ x ∈ l, p x = q x) →
      l.takeWhile p = l.takeWhile q ∧ l.dropWhile p = l.dropWhile q := by
  intro l
  induction l with
  | nil => intro _; exact ⟨rfl, rfl⟩
  | cons x rest ih =>
    intro h
    have hx : p x = q x := h x (List.mem_cons_self x rest)
    have hrest : ∀ y ∈ rest, p y = q y :=
      fun y hy => h y (List.mem_cons_of_mem x hy)
    rw [List.takeWhile_cons, List.takeWhile_cons, List.dropWhile_cons,
      List.dropWhile_cons, hx]
    rcases ih hrest with ⟨ht, hd⟩
    rw [ht, hd]
    exact ⟨rfl, rfl⟩

theorem lookupKey_sweepShardGo_of_live {ttl now : Int} {k : String}
    {e : EntryData} :
    ∀ (lru : List String) (items : List (String × EntryData)),
      lookupKey items k = some e → ¬ ttl < now - e.createdAt →
      lookupKey (sweepShardGo ttl now items lru).items k = some e := by
  intro lru
  induction lru with
  | nil => intro items hl _; exact hl
  | cons x rest ih =>
    intro items hl hlive
    cases hx : lookupKey items x with
    | some ent =>
      by_cases he : ttl < now - ent.createdAt
      · have hne : k ≠ x := by
          intro hc
          rw [hc, hx] at hl
          cases hl
          exact hlive he
        rw [sweepShardGo_cons_expired hx he]
        exact ih (deleteKey items x) (by rw [lookupKey_deleteKey_ne hne]; exact hl)
          hlive
      · rw [sweepShardGo_cons_live hx he]
        exact hl
    | none =>
      rw [sweepShardGo_cons_none hx]
      exact hl

theorem sweepShardGo_spec {ttl now : Int} :
    ∀ (lru : List String) (items : List (String × EntryData)), lru.Nodup →
      (sweepShardGo ttl now items lru).lru =
          lru.dropWhile (isExpiredIn ttl now items) ∧
      (∀ k, k ∉ lru.takeWhile (isExpiredIn ttl now items) →
        lookupKey (sweepShardGo ttl now items lru).items k =
          lookupKey items k) ∧
      (∀ k ∈ lru.takeWhile (isExpiredIn ttl now items),
        lookupKey (sweepShardGo ttl now items lru).items k = none) := by
  intro lru
  induction lru with
  | nil =>
    intro items _
    refine ⟨rfl, fun k _ => rfl, fun k hk => absurd hk (by simp)⟩
  | cons x rest ih =>
    intro items hnd
    rcases List.nodup_cons.mp hnd with ⟨hxrest, hndrest⟩
    cases hx : lookupKey items x with
    | some ent =>
      by_cases he : ttl < now - ent.createdAt
      · -- the front entry is expired and removed
        have hexp : isExpiredIn ttl now items x = true := by
          rw [isExpiredIn, hx]
          simpa using he
        have hcongr : ∀ y ∈ rest,
            isExpiredIn ttl now (deleteKey items x) y =
              isExpiredIn ttl now items y := by
          intro y hy
          have hyx : y ≠ x := fun hc => hxrest (hc ▸ hy)
          rw [isExpiredIn, isExpiredIn, lookupKey_deleteKey_ne hyx]
        rcases ih (deleteKey items x) hndrest with ⟨ih1, ih2, ih3⟩
        rcases takeWhile_dropWhile_congr hcongr with ⟨hct, hcd⟩
        rw [sweepShardGo_cons_expired hx he]
        refine ⟨?_, ?_, ?_⟩
        · rw [ih1, hcd, List.dropWhile_cons, hexp, if_pos rfl]
        · intro k hk
          rw [List.takeWhile_cons, hexp, if_pos rfl] at hk
          simp only [List.mem_cons, not_or] at hk
          rw [ih2 k (by rw [hct]; exact hk.2),
            lookupKey_deleteKey_ne hk.1]
        · intro k hk
          rw [List.takeWhile_cons, hexp, if_pos rfl] at hk
          rcases List.mem_cons.mp hk with hkx | hkrest
          · subst hkx
            have hknotin : k ∉ rest.takeWhile
                (isExpiredIn ttl now (deleteKey items k)) := by
              intro hc
              exact hxrest ((List.takeWhile_prefix _).sublist.subset hc)
            rw [ih2 k hknotin]
            exact lookupKey_deleteKey_self
          · rw [← hct] at hkrest
            exact ih3 k hkrest
      · have hexp : isExpiredIn ttl now items x = false := by
          rw [isExpiredIn, hx]
          simpa using he
        rw [sweepShardGo_cons_live hx he]
        refine ⟨?_, fun k _ => rfl, ?_⟩
        · rw [List.dropWhile_cons, hexp]
          rfl
        · intro k hk
          rw [List.takeWhile_cons, hexp] at hk
          simp at hk
    | none =>
      have hexp : isExpiredIn ttl now items x = false := by
        rw [isExpiredIn, hx]
      rw [sweepShardGo_cons_none hx]
      refine ⟨?_, fun k _ => rfl, ?_⟩
      · rw [List.dropWhile_cons, hexp]
        rfl
      · intro k hk
        rw [List.takeWhile_cons, hexp] at hk
        simp at hk

theorem getD_map {α β : Type} [Inhabited α] [Inhabited β] {l : List α}
    {f : α → β} {i : Nat} {d : β} (h : i < l.length) :
    (l.map f).getD i d = f (l.getD i default) := by
  rw [List.getD_eq_getElem?_getD, List.getD_eq_getElem?_getD,
    List.getElem?_map, List.getElem?_eq_getElem h]
  rfl

theorem getShard_evictExpired {c : OrderCache} {now : Int} {k : String}
    (h : c.mask + 1 = c.shards.length) (h0 : 0 < c.ttl) :
    getShard (evictExpired c now) k = sweepShard c.ttl now (getShard c k) := by
  show ((evictExpired c now).shards).getD
      (shardIdx (evictExpired c now) k) default = _
  have hidx : shardIdx (evictExpired c now) k = shardIdx c k := by
    unfold shardIdx
    rw [evictExpired_mask]
  rw [hidx]
  rw [evictExpired, if_neg (by omega)]
  exact getD_map (shardIdx_lt h)

/-! ### The claims -/

/-- C1: Set/Get round trip — in any well-formed cache state, `Set(v)`
followed immediately by `Get(k)` for v's key returns `(v, true)`,
provided the TTL (when enabled) has not elapsed between the two calls. -/
theorem set_get_roundtrip (c : OrderCache) (o : Order) (t1 t2 : Int)
    (hwf : CacheWF c) (httl : 0 < c.ttl → t2 - t1 ≤ c.ttl) :
    (cacheGet (cacheSet c o t1) o.orderUid t2).2 = (o, true) :=
  cacheSet_then_get hwf httl

/-- Witness for C1 at a concrete cache (ttl 100ns), value and times. -/
theorem set_get_roundtrip_witness :
    (cacheGet (cacheSet (oneShardCache 100 0)
        { orderUid := "a", payload := 7 } 0) "a" 50).2 =
      ({ orderUid := "a", payload := 7 }, true) :=
  set_get_roundtrip (oneShardCache 100 0) { orderUid := "a", payload := 7 }
    0 50 (by decide) (by decide)

/-- C4: size invariant — starting from any well-formed cache, any finite
sequence of Set/Get/sweep operations (capacity eviction happens inside
Set) leaves every shard with `len(items) == len(recency list)` and with
the map keys in bijection with the recency list (the `CacheWF`
permutation-plus-nodup invariant). -/
theorem size_invariant (c : OrderCache) (ops : List Op) (hwf : CacheWF c) :
    CacheWF (applyOps c ops) ∧
      ∀ s ∈ (applyOps c ops).shards, s.items.length = s.lru.length :=
  ⟨cacheWF_applyOps hwf,
   fun s hs => shardWF_length ((cacheWF_applyOps hwf).2 s hs)⟩

/-- Witness for C4 on a concrete run of one Set, one Get and one sweep. -/
theorem size_invariant_witness :
    (CacheWF (applyOps (oneShardCache 10 0)
        [Op.set { orderUid := "a", payload := 1 } 0, Op.get "a" 1,
         Op.sweep 100]) ∧
      ∀ s ∈ (applyOps (oneShardCache 10 0)
        [Op.set { orderUid := "a", payload := 1 } 0, Op.get "a" 1,
         Op.sweep 100]).shards, s.items.length = s.lru.length) :=
  size_invariant (oneShardCache 10 0)
    [Op.set { orderUid := "a", payload := 1 } 0, Op.get "a" 1, Op.sweep 100]
    (by decide)

/-- C2: capacity bound with LRU eviction — (a) from a well-formed cache
whose shards are within the per-shard capacity `c > 0`, any sequence of
operations keeps every shard at `≤ c` keys; (b) a Set of a new key into a
shard at capacity evicts exactly the recency-front entry: the front key
disappears, the new key is present, and every other key's entry is
untouched. -/
theorem capacity_bound_lru_eviction :
    (∀ (c : OrderCache) (ops : List Op), CacheWF c → 0 < c.perShardCap →
      (∀ s ∈ c.shards, s.items.length ≤ c.perShardCap) →
      ∀ s ∈ (applyOps c ops).shards, s.items.length ≤ c.perShardCap) ∧
    (∀ (ttl : Int) (cap : Nat) (s : Shard) (o : Order) (now : Int)
      (f : String) (rest : List String), ShardWF s → 0 < cap →
      lookupKey s.items o.orderUid = none → s.lru = f :: rest →
      s.lru.length = cap →
      (shardSet ttl cap s o now).lru = rest ++ [o.orderUid] ∧
      lookupKey (shardSet ttl cap s o now).items f = none ∧
      lookupKey (shardSet ttl cap s o now).items o.orderUid =
        some { value := o, createdAt := now } ∧
      (∀ k ∈ rest, lookupKey (shardSet ttl cap s o now).items k =
        lookupKey s.items k)) := by
  refine ⟨fun c ops hwf hcap hb => sizeBound_applyOps hwf rfl hcap hb, ?_⟩
  intro ttl cap s o now f rest hwf hcap hl hfr hlen
  have hc : 0 < cap ∧ cap < s.lru.length + 1 := ⟨hcap, by omega⟩
  have hhead : (s.lru ++ [o.orderUid]).head? = some f := by rw [hfr]; rfl
  have heq : shardSet ttl cap s o now =
      removeEntryLocked
        { items := s.items ++
            [(o.orderUid, { value := o, createdAt := now })],
          lru := s.lru ++ [o.orderUid] } f := by
    rw [shardSet_insert_evict hl hc, evictLRULocked_succ hhead,
      evictLRULocked_zero]
  have hknotin : o.orderUid ∉ s.lru := by
    intro hmem
    exact (lookupKey_eq_none_iff.mp hl) (hwf.2.mem_iff.mpr hmem)
  have hfmem : f ∈ s.lru := by rw [hfr]; exact List.mem_cons_self f rest
  have hkf : o.orderUid ≠ f := fun hc2 => hknotin (hc2 ▸ hfmem)
  have hfrest : f ∉ rest := by
    have hnd := hwf.1
    rw [hfr] at hnd
    exact (List.nodup_cons.mp hnd).1
  refine ⟨?_, ?_, ?_, ?_⟩
  · rw [heq, removeEntryLocked]
    dsimp only
    rw [hfr]
    show eraseKey (f :: (rest ++ [o.orderUid])) f = rest ++ [o.orderUid]
    rw [eraseKey, if_pos rfl]
  · rw [heq, removeEntryLocked]
    dsimp only
    exact lookupKey_deleteKey_self
  · rw [heq, removeEntryLocked]
    dsimp only
    rw [lookupKey_deleteKey_ne hkf, lookupKey_append, hl]
    simp [lookupKey]
  · intro k hkrest
    have hknef : k ≠ f := fun hc2 => hfrest (hc2 ▸ hkrest)
    have hkok : o.orderUid ≠ k := by
      intro hc2
      apply hknotin
      rw [hc2, hfr]
      exact List.mem_cons_of_mem f hkrest
    rw [heq, removeEntryLocked]
    dsimp only
    rw [lookupKey_deleteKey_ne hknef, lookupKey_append]
    cases hlk : lookupKey s.items k with
    | some v => rfl
    | none => simp [lookupKey, hkok]

/-- Witness for C2: part (a) on a 1-shard cache of capacity 2 filled by
three Sets; part (b) on a concrete shard at capacity 2 receiving a third
key, which evicts the front key "a" only. -/
theorem capacity_bound_lru_eviction_witness :
    ((∀ s ∈ (applyOps (oneShardCache 0 2)
        [Op.set { orderUid := "a", payload := 1 } 0,
         Op.set { orderUid := "b", payload := 2 } 1,
         Op.set { orderUid := "c", payload := 3 } 2]).shards,
      s.items.length ≤ (oneShardCache 0 2).perShardCap) ∧
     ((shardSet 0 2 fullShard { orderUid := "c", payload := 3 } 5).lru =
        ["b"] ++ ["c"] ∧
      lookupKey (shardSet 0 2 fullShard
        { orderUid := "c", payload := 3 } 5).items "a" = none ∧
      lookupKey (shardSet 0 2 fullShard
        { orderUid := "c", payload := 3 } 5).items "c" =
        some { value := { orderUid := "c", payload := 3 },
               createdAt := 5 } ∧
      (∀ k ∈ ["b"], lookupKey (shardSet 0 2 fullShard
        { orderUid := "c", payload := 3 } 5).items k =
        lookupKey fullShard.items k))) :=
  ⟨capacity_bound_lru_eviction.1 (oneShardCache 0 2)
      [Op.set { orderUid := "a", payload := 1 } 0,
       Op.set { orderUid := "b", payload := 2 } 1,
       Op.set { orderUid := "c", payload := 3 } 2]
      (by decide) (by decide) (by decide),
   capacity_bound_lru_eviction.2 0 2 fullShard
      { orderUid := "c", payload := 3 } 5 "a" ["b"]
      (by decide) (by decide) (by decide) (by decide) (by decide)⟩

/-- C7: one sweep pass removes exactly the front prefix of expired
entries of the recency list: the surviving recency list is the
`dropWhile` of the expiry test, surviving entries are untouched (even
those already expired further back), and every removed front entry is
gone from the map. -/
theorem sweep_front_prefix (ttl now : Int) (s : Shard) (hwf : ShardWF s)
    (h0 : 0 < ttl) :
    (sweepShard ttl now s).lru =
        s.lru.dropWhile (isExpiredIn ttl now s.items) ∧
      (∀ k ∈ (sweepShard ttl now s).lru,
        lookupKey (sweepShard ttl now s).items k = lookupKey s.items k) ∧
      (∀ k ∈ s.lru.takeWhile (isExpiredIn ttl now s.items),
        lookupKey (sweepShard ttl now s).items k = none) := by
  obtain ⟨h1, h2, h3⟩ := sweepShardGo_spec s.lru s.items hwf.1
  refine ⟨h1, ?_, h3⟩
  intro k hk
  apply h2
  intro hctake
  have hk2 : k ∈ (sweepShardGo ttl now s.items s.lru).lru := hk
  rw [h1] at hk2
  have hnd := hwf.1
  have hsplit : s.lru.takeWhile (isExpiredIn ttl now s.items) ++
      s.lru.dropWhile (isExpiredIn ttl now s.items) = s.lru :=
    List.takeWhile_append_dropWhile _ _
  rw [← hsplit] at hnd
  rcases List.nodup_append.mp hnd with ⟨_, _, hdisj⟩
  exact hdisj hctake hk2

/-- Witness for C7 on a shard holding an expired front entry ("a",
age 5 > ttl 3) and a live back entry ("b"). -/
theorem sweep_front_prefix_witness :
    ((sweepShard 3 5 mixedShard).lru =
        mixedShard.lru.dropWhile (isExpiredIn 3 5 mixedShard.items) ∧
      (∀ k ∈ (sweepShard 3 5 mixedShard).lru,
        lookupKey (sweepShard 3 5 mixedShard).items k =
          lookupKey mixedShard.items k) ∧
      (∀ k ∈ mixedShard.lru.takeWhile (isExpiredIn 3 5 mixedShard.items),
        lookupKey (sweepShard 3 5 mixedShard).items k = none)) :=
  sweep_front_prefix 3 5 mixedShard (by decide) (by decide)

/-- C8: `LoadFromSlice` is exactly `Set` once per value in input order
(a fold of `cacheSet`), and loading two values sharing a key leaves the
cache answering `Get` with the second one (last write wins). -/
theorem load_from_slice_lww :
    (∀ (c : OrderCache) (vs : List Order) (now : Int),
      LoadFromSlice c vs now = vs.foldl (fun c o => cacheSet c o now) c) ∧
    (∀ (c : OrderCache) (v1 v2 : Order) (t t2 : Int), CacheWF c →
      v1.orderUid = v2.orderUid → (0 < c.ttl → t2 - t ≤ c.ttl) →
      (cacheGet (LoadFromSlice c [v1, v2] t) v2.orderUid t2).2 =
        (v2, true)) := by
  constructor
  · intro c vs now
    rfl
  · intro c v1 v2 t t2 hwf hkey httl
    show (cacheGet (cacheSet (cacheSet c v1 t) v2 t) v2.orderUid t2).2 = _
    exact cacheSet_then_get (cacheWF_cacheSet hwf) httl

/-- Witness for C8: loading two values with key "a" then reading "a"
yields the second value. -/
theorem load_from_slice_lww_witness :
    (cacheGet (LoadFromSlice (oneShardCache 0 0)
        [{ orderUid := "a", payload := 1 }, { orderUid := "a", payload := 2 }]
        0) "a" 0).2 = ({ orderUid := "a", payload := 2 }, true) :=
  load_from_slice_lww.2 (oneShardCache 0 0)
    { orderUid := "a", payload := 1 } { orderUid := "a", payload := 2 } 0 0
    (by decide) rfl (by decide)

/-- C3: lazy TTL expiry anchored to the last write — with `ttl > 0`, a
`Set` at `t0` followed by a found `Get` at `t1 ≤ t0 + ttl` and a `Get`
at `t2 > t0 + ttl` reports not-found at `t2` and removes the entry, even
though no sweep ran, because the intermediate read did not refresh
`createdAt`. -/
theorem lazy_ttl_expiry (c : OrderCache) (o : Order) (t0 t1 t2 : Int)
    (hwf : CacheWF c) (h1 : 0 < c.ttl) (ht1 : t1 - t0 ≤ c.ttl)
    (ht2 : c.ttl < t2 - t0) :
    (cacheGet (cacheSet c o t0) o.orderUid t1).2 = (o, true) ∧
    (cacheGet (cacheGet (cacheSet c o t0) o.orderUid t1).1 o.orderUid
      t2).2 = (default, false) ∧
    cacheHasKey (cacheGet (cacheGet (cacheSet c o t0) o.orderUid t1).1
      o.orderUid t2).1 o.orderUid = false := by
  obtain ⟨t', hlook, ht'⟩ := cacheSet_lookup (o := o) (t := t0) hwf
  have ht'0 : t' = t0 := ht' h1
  have hwf1 : CacheWF (cacheSet c o t0) := cacheWF_cacheSet hwf
  have hcond1 : ¬ (0 < (cacheSet c o t0).ttl ∧ (cacheSet c o t0).ttl <
      t1 - (({ value := o, createdAt := t' } : EntryData)).createdAt) := by
    rintro ⟨hp, hgt⟩
    rw [cacheSet_ttl] at hgt
    simp only at hgt
    omega
  have hget1 : (cacheGet (cacheSet c o t0) o.orderUid t1).2 = (o, true) := by
    rw [cacheGet_snd, shardGet_live hlook hcond1]
  have hlook2 : lookupKey (getShard (cacheGet (cacheSet c o t0) o.orderUid
      t1).1 o.orderUid).items o.orderUid =
      some { value := o, createdAt := t' } := by
    rw [getShard_cacheGet hwf1.1, shardGet_live hlook hcond1]
    exact hlook
  have hwf2 : CacheWF (cacheGet (cacheSet c o t0) o.orderUid t1).1 :=
    cacheWF_cacheGet hwf1
  have hp2 : 0 < (cacheGet (cacheSet c o t0) o.orderUid t1).1.ttl := h1
  have hgt2 : (cacheGet (cacheSet c o t0) o.orderUid t1).1.ttl <
      t2 - (({ value := o, createdAt := t' } : EntryData)).createdAt := by
    show c.ttl < t2 - t'
    omega
  have hget2 := shardGet_expired hlook2 hp2 hgt2
  refine ⟨hget1, ?_, ?_⟩
  · rw [cacheGet_snd, hget2]
  · rw [cacheHasKey, getShard_cacheGet hwf2.1, hget2]
    show (lookupKey (removeEntryLocked _ _).items _).isSome = false
    rw [removeEntryLocked]
    dsimp only
    rw [lookupKey_deleteKey_self]
    rfl

/-- Witness for C3: ttl 200, Set at 0, found Get at 100, not-found Get
at 250 which removes the entry. -/
theorem lazy_ttl_expiry_witness :
    ((cacheGet (cacheSet (oneShardCache 200 0)
        { orderUid := "a", payload := 7 } 0) "a" 100).2 =
      ({ orderUid := "a", payload := 7 }, true) ∧
    (cacheGet (cacheGet (cacheSet (oneShardCache 200 0)
        { orderUid := "a", payload := 7 } 0) "a" 100).1 "a" 250).2 =
      (default, false) ∧
    cacheHasKey (cacheGet (cacheGet (cacheSet (oneShardCache 200 0)
        { orderUid := "a", payload := 7 } 0) "a" 100).1 "a" 250).1 "a" =
      false) :=
  lazy_ttl_expiry (oneShardCache 200 0) { orderUid := "a", payload := 7 }
    0 100 250 (by decide) (by decide) (by decide) (by decide)

/-- C10: the TTL boundary is strict — with `ttl > 0`, an entry written at
`t0` is still found by `Get` at exactly `t0 + ttl` and survives a sweep
at that instant; at `t0 + ttl + 1` the `Get` paths treat it as expired. -/
theorem ttl_boundary_strict (c : OrderCache) (o : Order) (t0 : Int)
    (hwf : CacheWF c) (h1 : 0 < c.ttl) :
    (cacheGet (cacheSet c o t0) o.orderUid (t0 + c.ttl)).2 = (o, true) ∧
    cacheHasKey (evictExpired (cacheSet c o t0) (t0 + c.ttl)) o.orderUid =
      true ∧
    (cacheGet (cacheSet c o t0) o.orderUid (t0 + c.ttl + 1)).2 =
      (default, false) := by
  obtain ⟨t', hlook, ht'⟩ := cacheSet_lookup (o := o) (t := t0) hwf
  have ht'0 : t' = t0 := ht' h1
  have hwf1 : CacheWF (cacheSet c o t0) := cacheWF_cacheSet hwf
  refine ⟨?_, ?_, ?_⟩
  · have hcond : ¬ (0 < (cacheSet c o t0).ttl ∧ (cacheSet c o t0).ttl <
        (t0 + c.ttl) - (({ value := o, createdAt := t' } :
          EntryData)).createdAt) := by
      rintro ⟨hp, hgt⟩
      rw [cacheSet_ttl] at hgt
      simp only at hgt
      omega
    rw [cacheGet_snd, shardGet_live hlook hcond]
  · have hp : 0 < (cacheSet c o t0).ttl := h1
    rw [cacheHasKey, getShard_evictExpired hwf1.1 hp]
    have hkeep := lookupKey_sweepShardGo_of_live
      (getShard (cacheSet c o t0) o.orderUid).lru
      (getShard (cacheSet c o t0) o.orderUid).items hlook
      (by
        show ¬ (cacheSet c o t0).ttl < (t0 + c.ttl) - t'
        rw [cacheSet_ttl]
        omega)
    rw [sweepShard, hkeep]
    rfl
  · have hp : 0 < (cacheSet c o t0).ttl := h1
    have hgt : (cacheSet c o t0).ttl <
        (t0 + c.ttl + 1) - (({ value := o, createdAt := t' } :
          EntryData)).createdAt := by
      rw [cacheSet_ttl]
      simp only
      omega
    rw [cacheGet_snd, shardGet_expired hlook hp hgt]

/-- Witness for C10: ttl 100, Set at 0, Get at exactly 100 found and
sweep at 100 keeps the entry, Get at 101 not-found. -/
theorem ttl_boundary_strict_witness :
    ((cacheGet (cacheSet (oneShardCache 100 0)
        { orderUid := "a", payload := 7 } 0) "a" (0 + 100)).2 =
      ({ orderUid := "a", payload := 7 }, true) ∧
    cacheHasKey (evictExpired (cacheSet (oneShardCache 100 0)
        { orderUid := "a", payload := 7 } 0) (0 + 100)) "a" = true ∧
    (cacheGet (cacheSet (oneShardCache 100 0)
        { orderUid := "a", payload := 7 } 0) "a" (0 + 100 + 1)).2 =
      (default, false)) :=
  ttl_boundary_strict (oneShardCache 100 0)
    { orderUid := "a", payload := 7 } 0 (by decide) (by decide)

/-- C5: construction validation — `New` returns an error exactly when
`shardCount ≤ 0`, `maxItems < 0`, `ttl < 0`, `cleanupInterval < 0`, or
`0 < maxItems < shardCount`; on every other input it returns a cache. -/
theorem new_validation (a b t i : Int) :
    ((∃ e, New a b t i = Except.error e) ↔
      (a ≤ 0 ∨ b < 0 ∨ t < 0 ∨ i < 0 ∨ (0 < b ∧ b < a))) ∧
    ((∃ c, New a b t i = Except.ok c) ↔
      ¬ (a ≤ 0 ∨ b < 0 ∨ t < 0 ∨ i < 0 ∨ (0 < b ∧ b < a))) := by
  unfold New
  split_ifs with h1 h2 h3 h4 h5 <;>
    constructor <;> simp <;> omega

/-- Counterexample for C6 as frozen: `New 3 10 0 0` yields per-shard
capacity `10 / 4 = 2` (the divisor is the power-of-two-rounded shard
count), not `max 1 (10 / 3) = 3` as the requested-count formula says. -/
theorem per_shard_capacity_counterexample :
    ∃ c, New 3 10 0 0 = Except.ok c ∧
      c.perShardCap ≠ max 1 ((10 : Int).toNat / (3 : Int).toNat) :=
  ⟨cacheNew310,
   by simp [New, roundUpPow2, roundLoop, cacheNew310, emptyShard],
   by decide⟩

/-- C6 (amended): for every successful `New` with `maxItems > 0`, the
per-shard capacity equals `max 1 (maxItems / sc)` where `sc` is the
shard count rounded up to the next power of two — not the requested
count. -/
theorem per_shard_capacity_formula (a b t i : Int) (c : OrderCache)
    (hb : 0 < b) (h : New a b t i = Except.ok c) :
    c.perShardCap = max 1 (b.toNat / roundUpPow2 a.toNat) := by
  unfold New at h
  split_ifs at h <;> first
    | exact Except.noConfusion h
    | (exfalso; omega)
    | (dsimp only at h
       injection h with h2
       rw [← h2]
       split <;> dsimp only <;>
         (by_cases hq : b.toNat / roundUpPow2 a.toNat = 0
          · rw [if_pos hq, hq]
            decide
          · rw [if_neg hq]
            exact (Nat.max_eq_right (Nat.one_le_iff_ne_zero.mpr hq)).symm))

/-- Witness for the amended C6 at `New 3 10 0 0`. -/
theorem per_shard_capacity_formula_witness :
    cacheNew310.perShardCap =
      max 1 ((10 : Int).toNat / roundUpPow2 (3 : Int).toNat) :=
  per_shard_capacity_formula 3 10 0 0 cacheNew310 (by decide)
    (by simp [New, roundUpPow2, roundLoop, cacheNew310, emptyShard])

/-- C9: `Close` at most once — every cache built by `New` starts with the
stop channel open; the first `Close` succeeds and leaves the stop channel
closed (the signal the reaper's select waits on), and a second `Close`
panics (Go's close of a closed channel), not a no-op. -/
theorem close_at_most_once :
    (∀ (a b t i : Int) (c : OrderCache), New a b t i = Except.ok c →
      c.stopClosed = false) ∧
    (∀ c : OrderCache, c.stopClosed = false →
      Close c = CloseResult.ok { c with stopClosed := true } ∧
      Close { c with stopClosed := true } = CloseResult.panic) := by
  constructor
  · intro a b t i c h
    unfold New at h
    split_ifs at h <;> first
      | exact Except.noConfusion h
      | (dsimp only at h
         injection h with h2
         rw [← h2]
         split <;> rfl)
  · intro c hc
    constructor
    · rw [Close, if_neg (by simp [hc])]
    · rfl

/-- Witness for C9 on a concrete cache with the stop channel open. -/
theorem close_at_most_once_witness :
    Close (oneShardCache 0 0) =
      CloseResult.ok { oneShardCache 0 0 with stopClosed := true } ∧
    Close { oneShardCache 0 0 with stopClosed := true } =
      CloseResult.panic :=
  close_at_most_once.2 (oneShardCache 0 0) rfl

end CacheSpec
